import Mathlib

/-!
Verification of the feets feature-extractor framework (src/feets/extractors.py).

The development shallowly embeds the registration machinery, the extraction
invocation protocol and the numerically hard extractors of the source file,
and settles the stated properties about them.  Python dictionaries are
modelled as association lists, machine reals as exact rationals or reals,
and exceptions as explicit error values or explicit state passing.
-/

namespace Feets

/-! ### Data channel catalog

Embeds the DATA_* constants and the DATA_IDXS table: the nine channel names
in slot order, so that the index of a name in the list is its slot. -/

def DATAS : List String :=
  ["magnitude", "time", "error", "magnitude2", "aligned_magnitude",
   "aligned_magnitude2", "aligned_time", "aligned_error", "aligned_error2"]

/-! ### Extractor descriptors and the registry

ExtractorConf embeds the namedtuple ExtractorConf(data, dependencies,
params, features) built by ExtractorMeta; parameter defaults are numbers
or the Python None, modelled as Option values. A Variant stands for one
extractor class: its class name plus its descriptor. The process-wide
dict _extractors is modelled as an association list passed explicitly. -/

structure ExtractorConf where
  data : List String
  dependencies : List String
  params : List (String × Option ℚ)
  features : List String
deriving DecidableEq, Repr

structure Variant where
  name : String
  conf : ExtractorConf
deriving DecidableEq, Repr

abbrev Registry := List (String × Variant)

/-- Dictionary lookup on the registry, as in the expression _extractors[feature]. -/
def lookupReg : Registry → String → Option Variant
  | [], _ => none
  | (g, w) :: rest, f => if g = f then some w else lookupReg rest f

/-- Single-key dictionary store, reg[f] = v: replaces an existing binding or appends. -/
def updateReg : Registry → String → Variant → Registry
  | [], f, v => [(f, v)]
  | (g, w) :: rest, f, v =>
      if g = f then (f, v) :: rest else (g, w) :: updateReg rest f v

/-- Embeds register_extractor with the Python global-state semantics made
explicit: first every declared dependency is checked against the current
keys and the first missing one raises (returning the registry as it was at
the raise point, i.e. unchanged, plus the error message); only if all
dependencies are present is one entry per produced feature inserted. -/
def registerExtractorRun (reg : Registry) (v : Variant) : Registry × Option String :=
  match v.conf.dependencies.find? (fun d => (lookupReg reg d).isNone) with
  | some d => (reg, some ("Dependency " ++ d ++ " from extractor " ++ v.name))
  | none => (v.conf.features.foldl (fun m f => updateReg m f v) reg, none)

/-- Embeds extractor_of: the registry lookup of the variant owning a feature. -/
def extractor_of (reg : Registry) (feature : String) : Option Variant :=
  lookupReg reg feature

lemma lookupReg_updateReg_self (m : Registry) (f : String) (v : Variant) :
    lookupReg (updateReg m f v) f = some v := by
  induction m with
  | nil => simp [updateReg, lookupReg]
  | cons hd tl ih =>
      obtain ⟨g, w⟩ := hd
      by_cases hgf : g = f <;> simp [updateReg, lookupReg, hgf, ih]

lemma lookupReg_updateReg_ne (m : Registry) (f g : String) (v : Variant)
    (h : g ≠ f) : lookupReg (updateReg m g v) f = lookupReg m f := by
  induction m with
  | nil => simp [updateReg, lookupReg, h]
  | cons hd tl ih =>
      obtain ⟨g', w⟩ := hd
      by_cases hg' : g' = g
      · subst hg'
        simp [updateReg, lookupReg, h]
      · simp only [updateReg, if_neg hg']
        by_cases hf : g' = f <;> simp [lookupReg, hf, ih]

lemma lookupReg_foldl_of_not_mem (fs : List String) (m : Registry) (v : Variant)
    (f : String) (h : f ∉ fs) :
    lookupReg (fs.foldl (fun acc g => updateReg acc g v) m) f = lookupReg m f := by
  induction fs generalizing m with
  | nil => rfl
  | cons g fs ih =>
      simp only [List.mem_cons, not_or] at h
      simp only [List.foldl_cons]
      rw [ih _ h.2, lookupReg_updateReg_ne _ _ _ _ (fun hgf => h.1 hgf.symm)]

lemma lookupReg_foldl_of_mem (fs : List String) (m : Registry) (v : Variant)
    (f : String) (h : f ∈ fs) :
    lookupReg (fs.foldl (fun acc g => updateReg acc g v) m) f = some v := by
  induction fs generalizing m with
  | nil => cases h
  | cons g fs ih =>
      simp only [List.foldl_cons]
      by_cases hf : f ∈ fs
      · exact ih _ hf
      · have hfg : f = g := by
          rcases List.mem_cons.mp h with h' | h'
          · exact h'
          · exact absurd h' hf
        subst hfg
        rw [lookupReg_foldl_of_not_mem _ _ _ _ hf, lookupReg_updateReg_self]

/-- C1: for every extractor variant, after a successful registration every
one of the variant's declared feature names looks up, via extractor_of, to
that same variant. -/
theorem register_then_lookup (reg : Registry) (v : Variant) (reg' : Registry)
    (h : registerExtractorRun reg v = (reg', none)) :
    ∀ f ∈ v.conf.features, extractor_of reg' f = some v := by
  intro f hf
  unfold registerExtractorRun at h
  cases hfind : v.conf.dependencies.find? (fun d => (lookupReg reg d).isNone) with
  | some d => rw [hfind] at h; simp at h
  | none =>
      rw [hfind] at h
      have hreg : v.conf.features.foldl (fun m f => updateReg m f v) reg = reg' :=
        congrArg Prod.fst h
      rw [← hreg]
      exact lookupReg_foldl_of_mem _ _ _ _ hf

def meanVariant : Variant :=
  { name := "Mean",
    conf := { data := ["magnitude"], dependencies := [], params := [],
              features := ["Mean"] } }

/-- Witness for C1: registering the Mean extractor into an empty registry
makes extractor_of return it for its declared feature. -/
theorem register_then_lookup_witness :
    extractor_of [("Mean", meanVariant)] "Mean" = some meanVariant :=
  register_then_lookup [] meanVariant [("Mean", meanVariant)] rfl "Mean" (by decide)

/-- C2: registering a variant one of whose declared dependencies is not a
key of the registry fails with an error and leaves the registry unchanged. -/
theorem register_missing_dep (reg : Registry) (v : Variant) (d : String)
    (hd : d ∈ v.conf.dependencies) (hmiss : lookupReg reg d = none) :
    (registerExtractorRun reg v).1 = reg ∧ ((registerExtractorRun reg v).2).isSome := by
  have hsome : (v.conf.dependencies.find? (fun d => (lookupReg reg d).isNone)).isSome := by
    rw [List.find?_isSome]
    exact ⟨d, hd, by simp [hmiss]⟩
  cases hfind : v.conf.dependencies.find? (fun d => (lookupReg reg d).isNone) with
  | none => rw [hfind] at hsome; simp at hsome
  | some d' => simp [registerExtractorRun, hfind]

def depVariant : Variant :=
  { name := "NeedsPeriod",
    conf := { data := ["magnitude"], dependencies := ["PeriodLS"], params := [],
              features := ["SomeFeature"] } }

/-- Witness for C2: registering a variant that depends on the feature
PeriodLS into an empty registry errors out and changes nothing. -/
theorem register_missing_dep_witness :
    (registerExtractorRun [] depVariant).1 = [] ∧
      ((registerExtractorRun [] depVariant).2).isSome :=
  register_missing_dep [] depVariant "PeriodLS" (by decide) rfl

/-! ### Extraction invocation protocol

Embeds Extractor.extract.  The computation routine fit can return a single
scalar or a sequence; extract normalizes a non-iterable result to a
one-element tuple and builds dict(zip(features, values)).  Numeric values
are modelled as rationals.  The try/finally block around setup/fit is
modelled with an explicit hook-counting state. -/

inductive FitResult where
  | scalar (v : ℚ)
  | seq (vs : List ℚ)
deriving DecidableEq, Repr

/-- Normalization step of extract: a value without an iterator is wrapped
into a one-element tuple, a sequence is kept as is. -/
def normalizeFit : FitResult → List ℚ
  | .scalar v => [v]
  | .seq vs => vs

/-- Embeds dict(zip(self.conf.features, features)): positional zip of the
declared feature names against the normalized fit values (zip stops at the
shorter of the two). -/
def extractMapping (features : List String) (r : FitResult) : List (String × ℚ) :=
  features.zip (normalizeFit r)

/-- Key list of a mapping built by extractMapping. -/
def mappingKeys (m : List (String × ℚ)) : List String :=
  m.map Prod.fst

/-- Counterexample to C3 as stated: an extractor declaring two features
whose computation routine returns a single scalar yields a mapping whose
key set is a strict subset of the declared features; the feature "b" is
declared but absent from the returned mapping. -/
theorem extract_scalar_two_features_cex :
    "b" ∈ (["a", "b"] : List String) ∧
      "b" ∉ mappingKeys (extractMapping ["a", "b"] (FitResult.scalar 0)) := by
  decide

/-- C3 amended: whenever the computation routine returns at least as many
values as there are declared features (a single scalar counting as one
value), the key list of the returned mapping is exactly the declared
feature list. -/
theorem extract_keys_complete (features : List String) (r : FitResult)
    (h : features.length ≤ (normalizeFit r).length) :
    mappingKeys (extractMapping features r) = features := by
  unfold mappingKeys extractMapping
  exact List.map_fst_zip _ _ h

/-- Witness for the amended C3: four declared features zipped against the
four values returned by a multi-valued routine give back all four keys,
and a single declared feature against a scalar gives back that key. -/
theorem extract_keys_complete_witness :
    mappingKeys (extractMapping ["PeriodLS", "Period_fit", "Psi_CS", "Psi_eta"]
        (FitResult.seq [2, 0, 1, 1])) =
      ["PeriodLS", "Period_fit", "Psi_CS", "Psi_eta"] ∧
    mappingKeys (extractMapping ["Mean"] (FitResult.scalar 5)) = ["Mean"] :=
  ⟨extract_keys_complete _ _ (by decide), extract_keys_complete _ _ (by decide)⟩

/-! ### Setup and teardown hooks around the computation routine -/

structure HookState where
  setupCalls : Nat
  teardownCalls : Nat
deriving DecidableEq, Repr

/-- Effect of one call of the setup hook on the hook-counting state. -/
def setupHook (s : HookState) : HookState :=
  { s with setupCalls := s.setupCalls + 1 }

/-- Effect of one call of the teardown hook on the hook-counting state. -/
def teardownHook (s : HookState) : HookState :=
  { s with teardownCalls := s.teardownCalls + 1 }

/-- Python try/finally: the finalizer effect runs on the state whether the
body produced a value or an exception, and the body's outcome - value or
exception - is passed through unchanged. -/
def pyFinally {α : Type} (body : Except String α) (fin : HookState → HookState)
    (s : HookState) : HookState × Except String α :=
  (fin s, body)

/-- Embeds the try/finally part of Extractor.extract: run setup, run the
computation routine (whose outcome, a result or a raised error, is the
fitOutcome argument), normalize and zip on success, and run teardown on
every exit path. -/
def extractRun (features : List String) (fitOutcome : Except String FitResult)
    (s : HookState) : HookState × Except String (List (String × ℚ)) :=
  let s1 := setupHook s
  pyFinally (fitOutcome.map (extractMapping features)) teardownHook s1

/-- C4: every invocation of extract runs the teardown hook exactly once -
the teardown counter increases by exactly one whether the computation
routine returns normally or raises - and a raised computation error is
propagated unchanged, not replaced or suppressed by the teardown hook. -/
theorem teardown_once_and_error_propagates (features : List String)
    (fitOutcome : Except String FitResult) (s : HookState) :
    (extractRun features fitOutcome s).1.teardownCalls = s.teardownCalls + 1 ∧
      (∀ e, fitOutcome = .error e → (extractRun features fitOutcome s).2 = .error e) ∧
      (∀ r, fitOutcome = .ok r →
        (extractRun features fitOutcome s).2 = .ok (extractMapping features r)) := by
  refine ⟨rfl, ?_, ?_⟩
  · intro e he
    subst he
    rfl
  · intro r hr
    subst hr
    rfl

/-- Witness for C4: a failing computation routine leaves the teardown
counter at one and the original error in place, at a concrete invocation. -/
theorem teardown_once_witness :
    (extractRun ["Color"] (Except.error "boom") ⟨0, 0⟩).1.teardownCalls = 0 + 1 ∧
      (extractRun ["Color"] (Except.error "boom") ⟨0, 0⟩).2 = .error "boom" :=
  ⟨(teardown_once_and_error_propagates ["Color"] (Except.error "boom") ⟨0, 0⟩).1,
   (teardown_once_and_error_propagates ["Color"] (Except.error "boom") ⟨0, 0⟩).2.1
     "boom" rfl⟩

/-! ### Slotted autocorrelation widening search

Embeds the widening loop of SlottedA_length.fit.  start_conditions runs a
first slotted-autocorrelation scan with slot budget K = 100; fit then looks
for the first autocorrelation value below 1/e.  While none is found the
budget is doubled (K = K + K); if the doubled budget exceeds
(max(time) - min(time)) / T the loop breaks, otherwise the autocorrelation
is recomputed with the doubled budget (resuming from the previous boundary
K1 = K / 2) and rescanned.  The numeric scan is abstracted: findFirst is
the outcome of the initial budget-100 scan, and find K is the outcome of
the rescan after the budget was doubled to K.  ST stands for the time span
divided by the slot width T.  The loop is given explicit fuel; the
termination theorem shows fuel depending only on ST makes running out of
fuel impossible, i.e. the source loop performs finitely many rounds. -/

inductive SlottedResult where
  | found (k : Nat)
  | noCrossing
  | outOfFuel
deriving DecidableEq, Repr

/-- One-for-one embedding of the while loop of SlottedA_length.fit: double
the budget, break when it exceeds the span-to-slot ratio, otherwise rescan
and continue; the fuel argument only bounds the number of rounds and is
consulted nowhere else. -/
def widenLoop (ST : ℚ) (find : Nat → Option Nat) : Nat → Nat → SlottedResult
  | 0, K =>
      if ST < ((K + K : Nat) : ℚ) then .noCrossing
      else
        match find (K + K) with
        | some k => .found k
        | none => .outOfFuel
  | fuel + 1, K =>
      if ST < ((K + K : Nat) : ℚ) then .noCrossing
      else
        match find (K + K) with
        | some k => .found k
        | none => widenLoop ST find fuel (K + K)

/-- Embedding of SlottedA_length.fit around the loop: if the initial
budget-100 scan already finds a value below 1/e the loop never runs,
otherwise the widening loop takes over starting from K = 100. -/
def slottedSearch (ST : ℚ) (findFirst : Option Nat) (find : Nat → Option Nat)
    (fuel : Nat) : SlottedResult :=
  match findFirst with
  | some k => .found k
  | none => widenLoop ST find fuel 100

lemma widenLoop_ne_outOfFuel (ST : ℚ) (find : Nat → Option Nat) :
    ∀ (fuel K : Nat), ST < ((2 ^ fuel * K : Nat) : ℚ) →
      widenLoop ST find fuel K ≠ SlottedResult.outOfFuel := by
  intro fuel
  induction fuel with
  | zero =>
      intro K h
      have hK0 : (0 : ℚ) ≤ (K : ℚ) := Nat.cast_nonneg K
      have hK : ST < ((K + K : Nat) : ℚ) := by
        push_cast at h ⊢
        nlinarith [h, hK0]
      simp only [widenLoop]
      rw [if_pos hK]
      simp
  | succ fuel ih =>
      intro K h
      simp only [widenLoop]
      by_cases hcond : ST < ((K + K : Nat) : ℚ)
      · rw [if_pos hcond]; simp
      · rw [if_neg hcond]
        cases hfind : find (K + K) with
        | some k => simp
        | none =>
            simp only []
            have h' : ST < ((2 ^ fuel * (K + K) : Nat) : ℚ) := by
              have heq : (2 ^ (fuel + 1) * K : Nat) = 2 ^ fuel * (K + K) := by ring
              rw [← heq]
              exact h
            exact ih (K + K) h'

/-- C5: for every positive slot width T and nonnegative finite time span S,
the widening search of the slotted autocorrelation terminates - there is a
finite round budget, depending only on S / T, with which the loop never
runs out of fuel, whatever the data-dependent scan results are.  Each round
doubles the slot budget starting from 100 and the loop exits once a value
below 1/e is found or the doubled budget exceeds S / T. -/
theorem slotted_search_terminates (S T : ℚ) (hT : 0 < T) (hS : 0 ≤ S) :
    ∃ fuel : Nat, ∀ (findFirst : Option Nat) (find : Nat → Option Nat),
      slottedSearch (S / T) findFirst find fuel ≠ SlottedResult.outOfFuel := by
  set x : ℚ := S / T with hx
  have hx0 : 0 ≤ x := div_nonneg hS hT.le
  set n : Nat := (⌈x⌉).toNat with hn
  refine ⟨n, ?_⟩
  intro findFirst find
  cases findFirst with
  | some k => simp [slottedSearch]
  | none =>
      simp only [slottedSearch]
      apply widenLoop_ne_outOfFuel
      have h1 : x ≤ (n : ℚ) := by
        have hceil : x ≤ ((⌈x⌉ : ℤ) : ℚ) := Int.le_ceil x
        have hnn : (0 : ℤ) ≤ ⌈x⌉ := Int.ceil_nonneg hx0
        have key : ((⌈x⌉.toNat : ℕ) : ℚ) = ((⌈x⌉ : ℤ) : ℚ) := by
          rw [← Int.cast_natCast, Int.toNat_of_nonneg hnn]
        rw [hn, key]
        exact hceil
      have h2 : (n : ℚ) < ((2 ^ n : Nat) : ℚ) := by
        have := Nat.lt_two_pow n
        exact_mod_cast this
      have h3 : ((2 ^ n : Nat) : ℚ) ≤ ((2 ^ n * 100 : Nat) : ℚ) := by
        push_cast
        nlinarith [pow_pos (by norm_num : (0 : ℚ) < 2) n]
      calc x ≤ (n : ℚ) := h1
        _ < ((2 ^ n : Nat) : ℚ) := h2
        _ ≤ ((2 ^ n * 100 : Nat) : ℚ) := h3

/-- Witness for C5: with slot width 4 and a time span of 1000 the search
admits a finite round budget for every possible scan outcome. -/
theorem slotted_search_terminates_witness :
    ∃ fuel : Nat, ∀ (findFirst : Option Nat) (find : Nat → Option Nat),
      slottedSearch (1000 / 4) findFirst find fuel ≠ SlottedResult.outOfFuel :=
  slotted_search_terminates 1000 4 (by norm_num) (by norm_num)

/-! ### Shared numeric helpers -/

/-- Arithmetic mean of a list, as np.mean: sum divided by length (the
empty case inherits division by zero: numpy yields NaN, fields here 0). -/
def listMean {α : Type} [DivisionRing α] (l : List α) : α :=
  l.sum / l.length

/-! ### The CAR extractor

Embeds CAR._calculate_CAR and CAR.fit.  The scipy bounded minimizer is an
external black box, modelled as an arbitrary function receiving exactly
what the source passes it: the initial guess x0 = [10, 0.5], the bounds
((0, 100), (0, 100)) and the extra arguments (time, magnitude,
elementwise-squared error) that scipy would forward to the objective
_CAR_Like; it returns the fitted parameter pair res.x = (sigma, tau). -/

structure MinimizeArgs where
  x0 : ℚ × ℚ
  bounds : (ℚ × ℚ) × (ℚ × ℚ)
  time : List ℚ
  magnitude : List ℚ
  errorVars : List ℚ
deriving DecidableEq, Repr

/-- Embeds CAR._calculate_CAR: square the error channel, call the bounded
minimizer with the fixed initial guess [10, 0.5] and the fixed bounds
((0, 100), (0, 100)), and return the two components of the result. -/
def CAR_calculate (minimizer : MinimizeArgs → ℚ × ℚ)
    (time magnitude error : List ℚ) : ℚ × ℚ :=
  minimizer
    { x0 := (10, 1/2), bounds := ((0, 100), (0, 100)),
      time := time, magnitude := magnitude,
      errorVars := error.map (fun e => e ^ 2) }

/-- Embeds CAR.fit: run _calculate_CAR on (time, magnitude, error) and
return the triple (sigma, tau, mean(magnitude) / tau). -/
def CAR_fit (minimizer : MinimizeArgs → ℚ × ℚ)
    (magnitude time error : List ℚ) : ℚ × ℚ × ℚ :=
  let st := CAR_calculate minimizer time magnitude error
  (st.1, st.2, listMean magnitude / st.2)

/-- C7: for every input, the CAR extractor returns exactly
(sigma, tau, mean(magnitude) / tau) where (sigma, tau) is whatever the
bounded minimizer produces when invoked with the constant initial guess
(10, 0.5) and both parameters bounded to the range (0, 100). -/
theorem CAR_fit_shape (minimizer : MinimizeArgs → ℚ × ℚ)
    (magnitude time error : List ℚ) :
    CAR_fit minimizer magnitude time error =
      ((minimizer
          { x0 := (10, 1/2), bounds := ((0, 100), (0, 100)),
            time := time, magnitude := magnitude,
            errorVars := error.map (fun e => e ^ 2) }).1,
       (minimizer
          { x0 := (10, 1/2), bounds := ((0, 100), (0, 100)),
            time := time, magnitude := magnitude,
            errorVars := error.map (fun e => e ^ 2) }).2,
       listMean magnitude /
         (minimizer
            { x0 := (10, 1/2), bounds := ((0, 100), (0, 100)),
              time := time, magnitude := magnitude,
              errorVars := error.map (fun e => e ^ 2) }).2) :=
  rfl

/-! ### The FourierComponents extractor (C6)

FourierComponents.fit begins with the statement
A, PH, sPH = self._components(magnitude, time); attribute lookup on self
searches the class namespace of FourierComponents and then its base class
Extractor.  The two method tables below list, from the source, every
method either class defines.  The helper the class actually defines is
spelled _compoenents (and its body, in addition, ends without a return
statement), so the name fit looks up is defined nowhere and every
invocation raises AttributeError before any feature value is produced. -/

def FourierComponents_methodNames : List String :=
  ["_model", "_yfunc_maker", "_compoenents", "fit"]

def Extractor_methodNames : List String :=
  ["__init__", "__repr__", "__str__", "setup", "fit", "teardown", "extract"]

/-- Method name that FourierComponents.fit tries to resolve on self. -/
def FourierComponents_fit_callTarget : String := "_components"

/-- C6 (code bug witnessing theorem): the method name invoked by
FourierComponents.fit exists neither in the FourierComponents class
namespace nor in the Extractor base class, so the attribute lookup - and
with it every extraction - fails; the 24 declared values are never
produced. -/
theorem fourier_fit_calls_missing_method :
    FourierComponents_fit_callTarget ∉
      FourierComponents_methodNames ++ Extractor_methodNames := by
  decide

/-! ### The Color extractor (C10)

Extractor.extract builds the keyword-argument dictionary for the
computation routine from the declared dependencies, the declared data
channels and the resolved parameters, and calls self.fit(**kwargs).
A Python call raises TypeError when a keyword is not among the callee's
parameter names.  Color declares the channels magnitude, time and
magnitude2 but its fit only accepts magnitude and magnitude2. -/

def Color_conf : ExtractorConf :=
  { data := ["magnitude", "time", "magnitude2"], dependencies := [],
    params := [], features := ["Color"] }

/-- Parameter names of Color.fit (besides self), from the source. -/
def Color_fitParams : List String := ["magnitude", "magnitude2"]

/-- Keyword names extract passes to the computation routine: dependencies,
then the declared data channels, then the parameter names.  The keys are
fully determined by the descriptor, independent of the data values. -/
def extractKwargKeys (conf : ExtractorConf) : List String :=
  conf.dependencies ++ conf.data ++ conf.params.map Prod.fst

/-- A keyword call binds without a TypeError only if every passed keyword
is an accepted parameter name. -/
def fitCallAccepts (accepted : List String) (kwargKeys : List String) : Bool :=
  kwargKeys.all (fun k => k ∈ accepted)

/-- C10: the keyword set extract passes for Color contains the channel
name time, Color.fit does not accept a parameter of that name, and hence
the keyword binding check fails - since those keyword names do not depend
on the input data, every invocation of the protocol on Color fails before
producing a result. -/
theorem color_extract_always_fails :
    "time" ∈ extractKwargKeys Color_conf ∧
      "time" ∉ Color_fitParams ∧
      fitCallAccepts Color_fitParams (extractKwargKeys Color_conf) = false := by
  decide

/-! ### The LombScargle periodogram feature bundle (C8)

Embeds LombScargle._compute_ls, _compute_cs, _compute_eta and fit.  The
frequency-domain search lomb.fasper is an external black box; its result
tuple (fx, fy, nout, jmax, prob) is the FasperResult structure and the
search itself is an arbitrary function argument.  np.mod(a, b) is
a - b * floor(a / b).  np.argsort applied to the folded times, indexing
the magnitudes, is modelled as a stable sort of the zipped pairs by the
folded-time key (identical to the source whenever the folded times are
distinct; no claim here depends on the tie order). -/

structure FasperResult (α : Type) where
  freqs : List α
  power : List α
  nout : Nat
  jmax : Nat
  prob : α

/-- Embeds np.mod for a nonzero modulus: a - b * floor(a / b). -/
def npMod {α : Type} [LinearOrderedField α] [FloorRing α] (a b : α) : α :=
  a - b * (⌊a / b⌋ : α)

/-- Embeds LombScargle._compute_ls: the variable named period in the
source receives fx[jmax], the frequency of peak power; T = 1.0 / period is
the fitted period; new_time = np.mod(time, 2 * T) / (2 * T); the method
returns (T, new_time, prob, period).  List indexing is modelled totally
with a default of 0. -/
def computeLs {α : Type} [LinearOrderedField α] [FloorRing α]
    (r : FasperResult α) (time : List α) : α × List α × α × α :=
  (1 / r.freqs.getD r.jmax 0,
   time.map (fun t =>
     npMod t (2 * (1 / r.freqs.getD r.jmax 0)) / (2 * (1 / r.freqs.getD r.jmax 0))),
   r.prob,
   r.freqs.getD r.jmax 0)

/-- Folding onto a half-period window normalized to the unit interval, as
the claim words it: time modulo half the period P, scaled by that window. -/
def halfPeriodFold {α : Type} [LinearOrderedField α] [FloorRing α] (P t : α) : α :=
  npMod t (P / 2) / (P / 2)

/-- Counterexample to C8 as stated: with a peak frequency of 1/2 the
fitted period is T = 2, and the code folds the time value 3 to
mod(3, 2 * T) / (2 * T) = 3/4 - a window of twice the period - whereas
folding onto a half-period window would give mod(3, T / 2) / (T / 2) = 0.
The folded series the code computes is not the half-period folding. -/
theorem lombscargle_fold_window_cex :
    (computeLs (FasperResult.mk [1/2] [1] 1 0 (1/100)) [(3 : ℚ)]).2.1 ≠
      [halfPeriodFold (computeLs (FasperResult.mk [1/2] [1] 1 0 (1/100)) [(3 : ℚ)]).1 3] := by
  simp only [computeLs, halfPeriodFold, npMod, List.getD, List.get?, List.map, ne_eq,
    List.cons.injEq, and_true]
  norm_num

/-- Population variance of a list, as np.var: mean squared deviation. -/
def listVar {α : Type} [Field α] (l : List α) : α :=
  listMean (l.map (fun x => (x - listMean l) ^ 2))

/-- Embeds np.std: square root of the population variance. -/
noncomputable def npStd (l : List ℝ) : ℝ :=
  Real.sqrt (listVar l)

/-- Embeds np.cumsum: the running sums of the list. -/
def cumsum {α : Type} [AddMonoid α] (l : List α) : List α :=
  (l.scanl (fun a b => a + b) 0).tail

/-- Embeds np.max on a nonempty array (0 for the empty one). -/
def listMax {α : Type} [LinearOrder α] [Zero α] (l : List α) : α :=
  l.foldl max (l.headD 0)

/-- Embeds np.min on a nonempty array (0 for the empty one). -/
def listMin {α : Type} [LinearOrder α] [Zero α] (l : List α) : α :=
  l.foldl min (l.headD 0)

/-- Embeds magnitude[np.argsort(new_time)]: the values reordered by
ascending key. -/
noncomputable def sortByKey (keys : List ℝ) (vals : List ℝ) : List ℝ :=
  ((keys.zip vals).mergeSort (fun a b => decide (a.1 ≤ b.1))).map Prod.snd

/-- Embeds LombScargle._compute_cs: the range of the cumulative sums of
the mean-centered folded data scaled by 1 / (N * std). -/
noncomputable def computeCs (foldedData : List ℝ) (N : ℕ) : ℝ :=
  listMax ((cumsum (foldedData.map (fun x => x - listMean foldedData))).map
      (fun x => x / ((N : ℝ) * npStd foldedData))) -
    listMin ((cumsum (foldedData.map (fun x => x - listMean foldedData))).map
      (fun x => x / ((N : ℝ) * npStd foldedData)))

/-- Embeds LombScargle._compute_eta: the sum of squared consecutive
differences of the folded data, scaled by 1 / ((N - 1) * var). -/
noncomputable def computeEta (foldedData : List ℝ) (N : ℕ) : ℝ :=
  1 / (((N : ℝ) - 1) * listVar foldedData) *
    ((foldedData.zip foldedData.tail).map (fun p => (p.2 - p.1) ^ 2)).sum

/-- Embeds LombScargle.fit: compute the periodogram quantities, fold and
reorder the magnitudes, and return (T, prob, R, Psi_eta) with N the length
of the folded series. -/
noncomputable def LombScargle_fit
    (fasper : List ℝ → List ℝ → ℝ → ℝ → FasperResult ℝ)
    (magnitude time : List ℝ) (ofac : ℝ) : ℝ × ℝ × ℝ × ℝ :=
  ((computeLs (fasper time magnitude ofac 100) time).1,
   (computeLs (fasper time magnitude ofac 100) time).2.2.1,
   computeCs (sortByKey ((computeLs (fasper time magnitude ofac 100) time).2.1) magnitude)
     (sortByKey ((computeLs (fasper time magnitude ofac 100) time).2.1) magnitude).length,
   computeEta (sortByKey ((computeLs (fasper time magnitude ofac 100) time).2.1) magnitude)
     (sortByKey ((computeLs (fasper time magnitude ofac 100) time).2.1) magnitude).length)

/-- Cumulative-sum range statistic phrased from the spec: for the folded
sequence, the running sums of deviations from the mean, each divided by
the length times the standard deviation, and then max minus min. -/
noncomputable def specCsRange (xs : List ℝ) : ℝ :=
  listMax ((List.range xs.length).map
      (fun k => ((xs.take (k + 1)).map (fun x => x - xs.sum / xs.length)).sum /
        ((xs.length : ℝ) *
          Real.sqrt ((xs.map (fun x => (x - xs.sum / xs.length) ^ 2)).sum / xs.length)))) -
    listMin ((List.range xs.length).map
      (fun k => ((xs.take (k + 1)).map (fun x => x - xs.sum / xs.length)).sum /
        ((xs.length : ℝ) *
          Real.sqrt ((xs.map (fun x => (x - xs.sum / xs.length) ^ 2)).sum / xs.length))))

/-- Normalized squared-first-difference statistic phrased from the spec:
the sum of squared consecutive differences divided by (N - 1) times the
population variance. -/
noncomputable def specEta (xs : List ℝ) : ℝ :=
  ((xs.zip xs.tail).map (fun p => (p.2 - p.1) ^ 2)).sum /
    (((xs.length : ℝ) - 1) *
      ((xs.map (fun x => (x - xs.sum / xs.length) ^ 2)).sum / xs.length))

lemma listVar_eq (xs : List ℝ) :
    listVar xs = (xs.map (fun x => (x - xs.sum / xs.length) ^ 2)).sum / xs.length := by
  unfold listVar listMean
  rw [List.length_map]

lemma scanl_add_eq (l : List ℝ) :
    ∀ a : ℝ, l.scanl (fun x y => x + y) a =
      a :: (List.range l.length).map (fun k => a + (l.take (k + 1)).sum) := by
  induction l with
  | nil => intro a; simp
  | cons x xs ih =>
      intro a
      rw [List.scanl_cons, ih (a + x)]
      simp only [List.length_cons, List.range_succ_eq_map, List.map_cons, List.map_map,
        List.take_succ_cons, List.sum_cons, List.singleton_append]
      congr 1
      congr 1
      · simp
      · apply List.map_congr_left
        intro k _
        simp [Function.comp, add_assoc]

lemma cumsum_eq_take_sums (l : List ℝ) :
    cumsum l = (List.range l.length).map (fun k => (l.take (k + 1)).sum) := by
  unfold cumsum
  rw [scanl_add_eq l 0]
  simp

lemma computeCs_eq_spec (xs : List ℝ) : computeCs xs xs.length = specCsRange xs := by
  have hlist :
      (cumsum (xs.map (fun x => x - listMean xs))).map
          (fun x => x / ((xs.length : ℝ) * npStd xs)) =
        (List.range xs.length).map
          (fun k => ((xs.take (k + 1)).map (fun x => x - xs.sum / xs.length)).sum /
            ((xs.length : ℝ) *
              Real.sqrt ((xs.map (fun x => (x - xs.sum / xs.length) ^ 2)).sum / xs.length))) := by
    rw [cumsum_eq_take_sums, List.length_map, List.map_map]
    apply List.map_congr_left
    intro k _
    simp only [Function.comp, npStd, listVar_eq, listMean]
    rw [List.map_take]
  unfold computeCs specCsRange
  rw [hlist]

lemma computeEta_eq_spec (xs : List ℝ) : computeEta xs xs.length = specEta xs := by
  unfold computeEta specEta
  rw [listVar_eq, one_div_mul_eq_div]

/-- C8 amended: the periodogram bundle takes the peak frequency f returned
by the search, inverts it to the period 1 / f, folds the time values onto
a window of TWICE the period (not half of it) normalized to the unit
interval, reorders the magnitudes by the folded time, and returns exactly
(fitted period, peak-power significance, cumulative-sum range of the
folded sequence, normalized squared-first-difference statistic). -/
theorem lombscargle_bundle_amended
    (fasper : List ℝ → List ℝ → ℝ → ℝ → FasperResult ℝ)
    (magnitude time : List ℝ) (ofac f : ℝ)
    (hf : (fasper time magnitude ofac 100).freqs.getD
      (fasper time magnitude ofac 100).jmax 0 = f) :
    LombScargle_fit fasper magnitude time ofac =
      (1 / f,
       (fasper time magnitude ofac 100).prob,
       specCsRange (sortByKey
         (time.map (fun t => npMod t (2 * (1 / f)) / (2 * (1 / f)))) magnitude),
       specEta (sortByKey
         (time.map (fun t => npMod t (2 * (1 / f)) / (2 * (1 / f)))) magnitude)) := by
  unfold LombScargle_fit computeLs
  rw [hf]
  rw [computeCs_eq_spec, computeEta_eq_spec]

/-- Fixed black-box search outcome used by the C8 witness: one candidate
frequency 2 with peak index 0 and significance 3. -/
def fasperConst : List ℝ → List ℝ → ℝ → ℝ → FasperResult ℝ :=
  fun _ _ _ _ => FasperResult.mk [2] [5] 1 0 3

/-- Witness for the amended C8 at a concrete invocation: peak frequency 2,
fitted period 1/2, double-period fold window. -/
theorem lombscargle_bundle_amended_witness :
    LombScargle_fit fasperConst [1, 2] [0, 1] 6 =
      (1 / 2, 3,
       specCsRange (sortByKey
         (([0, 1] : List ℝ).map (fun t => npMod t (2 * (1 / 2)) / (2 * (1 / 2)))) [1, 2]),
       specEta (sortByKey
         (([0, 1] : List ℝ).map (fun t => npMod t (2 * (1 / 2)) / (2 * (1 / 2)))) [1, 2])) :=
  lombscargle_bundle_amended fasperConst [1, 2] [0, 1] 6 2 rfl

/-! ### The StructureFunctions extractor (C9)

Embeds StructureFunctions.fit up to the point where np.log10 is applied:
the input is interpolated (scipy interp1d, linear) onto an Np = 100 point
regular grid between min(time) and max(time); for each lag tau from 1 to
Nsf - 1 = 99 the mean absolute deviation raised to the powers 1, 2, 3 is
stored at index tau - 1, leaving the last of the Nsf = 100 preallocated
zeros untouched; then np.trim_zeros - which removes leading and trailing
zeros only - is applied before the base-10 logarithm.  The structures
below compute exactly the list being passed to np.log10. -/

/-- Embeds np.linspace(a, b, n): n evenly spaced points from a to b,
endpoints included. -/
def linspace (a b : ℚ) (n : ℕ) : List ℚ :=
  (List.range n).map (fun i : ℕ => a + (b - a) * (i : ℚ) / ((n : ℚ) - 1))

/-- Embeds scipy.interpolate.interp1d with linear interpolation through
the given (time, value) points, assumed in ascending time order: the value
at x is taken from the first segment whose right endpoint is at or beyond
x (the last segment extends beyond the final point; evaluation there or
on an empty point list cannot occur in fit, whose grid stays inside the
time range). -/
def interpPts : List (ℚ × ℚ) → ℚ → ℚ
  | [], _ => 0
  | [q], _ => q.2
  | q :: r :: rest, x =>
      if x ≤ r.1 then q.2 + (r.2 - q.2) * (x - q.1) / (r.1 - q.1)
      else interpPts (r :: rest) x

/-- Embeds mag_int = f(time_int): the interpolant evaluated on the grid. -/
def interpGrid (time mag : List ℚ) (grid : List ℚ) : List ℚ :=
  grid.map (interpPts (time.zip mag))

/-- Embeds one entry of the structure-function arrays: the mean over i of
the absolute difference of the interpolated series at distance tau, raised
to the power p (the source computes mean(abs(power(abs(diff), p))), which
for nonnegative bases is the same expression). -/
def sfEntry (m : List ℚ) (tau : ℕ) (p : ℕ) : ℚ :=
  listMean ((List.range (100 - tau)).map (fun i => |m.getD i 0 - m.getD (i + tau) 0| ^ p))

/-- Embeds the filled sf array of length Nsf = 100: index i holds the
entry for lag tau = i + 1 for i < 99, and the last preallocated zero is
never written. -/
def sfSeq (m : List ℚ) (p : ℕ) : List ℚ :=
  ((List.range 99).map (fun i => sfEntry m (i + 1) p)) ++ [0]

/-- Embeds np.trim_zeros with the default mode: remove leading zeros,
then remove trailing zeros; interior entries are untouched. -/
def trimZeros (l : List ℚ) : List ℚ :=
  ((l.dropWhile (fun x => decide (x = 0))).reverse.dropWhile
    (fun x => decide (x = 0))).reverse

/-- The exact list StructureFunctions.fit passes to np.log10 for the
structure function of power p: the trimmed sf sequence of the series
interpolated on the 100-point grid over the time range. -/
def structureFunctionLogInput (magnitude time : List ℚ) (p : ℕ) : List ℚ :=
  trimZeros (sfSeq (interpGrid time magnitude (linspace (listMin time) (listMax time) 100)) p)

lemma zero_mem_dropWhile_of_earlier :
    ∀ (l : List ℚ) (m n : ℕ), m < n → n < l.length →
      l.getD m 1 ≠ 0 → l.getD n 1 = 0 →
      (0 : ℚ) ∈ l.dropWhile (fun x => decide (x = 0)) := by
  intro l
  induction l with
  | nil => intro m n _ hn _ _; simp at hn
  | cons a t ih =>
      intro m n hmn hn hm hn0
      by_cases ha : a = 0
      · cases m with
        | zero => simp [List.getD] at hm; exact absurd ha hm
        | succ m' =>
            cases n with
            | zero => omega
            | succ n' =>
                rw [List.dropWhile_cons, if_pos (by simpa using ha)]
                exact ih m' n' (by omega) (by simpa using hn) (by simpa using hm)
                  (by simpa using hn0)
      · rw [List.dropWhile_cons, if_neg (by simpa using ha)]
        have hmem : (0 : ℚ) ∈ a :: t := by
          have hg : (a :: t).getD n 1 = (a :: t)[n] := List.getD_eq_getElem _ _ hn
          rw [hg] at hn0
          rw [← hn0]
          exact List.getElem_mem hn
        exact hmem

lemma zero_mem_trimZeros (l : List ℚ) (j k : ℕ)
    (h0 : l.getD 0 1 ≠ 0) (h0j : 0 < j) (hjk : j < k) (hk : k < l.length)
    (hj0 : l.getD j 1 = 0) (hkne : l.getD k 1 ≠ 0) :
    (0 : ℚ) ∈ trimZeros l := by
  have hlen : 0 < l.length := by omega
  have hrevD : ∀ i, i < l.length → l.reverse.getD i 1 = l.getD (l.length - 1 - i) 1 := by
    intro i hi
    have hi' : i < l.reverse.length := by simpa using hi
    rw [List.getD_eq_getElem _ _ hi', List.getD_eq_getElem _ _ (by omega),
      List.getElem_reverse]
  obtain ⟨a, t, rfl⟩ : ∃ a t, l = a :: t := by
    cases l with
    | nil => simp at hlen
    | cons a t => exact ⟨a, t, rfl⟩
  unfold trimZeros
  rw [List.dropWhile_cons, if_neg (by simpa [List.getD] using h0)]
  rw [List.mem_reverse]
  set L : List ℚ := a :: t with hL
  apply zero_mem_dropWhile_of_earlier L.reverse (L.length - 1 - k) (L.length - 1 - j)
  · omega
  · simp only [List.length_reverse]
    omega
  · rw [hrevD _ (by omega)]
    have : L.length - 1 - (L.length - 1 - k) = k := by omega
    rw [this]
    exact hkne
  · rw [hrevD _ (by omega)]
    have : L.length - 1 - (L.length - 1 - j) = j := by omega
    rw [this]
    exact hj0

lemma dropWhile_head?_false (p : ℚ → Bool) :
    ∀ (l : List ℚ) (a : ℚ), (l.dropWhile p).head? = some a → p a = false := by
  intro l
  induction l with
  | nil => intro a h; simp at h
  | cons x t ih =>
      intro a h
      rw [List.dropWhile_cons] at h
      by_cases hx : p x = true
      · rw [if_pos hx] at h
        exact ih a h
      · rw [if_neg hx] at h
        simp only [List.head?_cons, Option.some.injEq] at h
        subst h
        simpa using hx

lemma dropWhile_getLast?_eq (p : ℚ → Bool) :
    ∀ (l : List ℚ), l.dropWhile p ≠ [] → (l.dropWhile p).getLast? = l.getLast? := by
  intro l
  induction l with
  | nil => intro h; simp at h
  | cons x t ih =>
      intro h
      rw [List.dropWhile_cons] at h ⊢
      by_cases hx : p x = true
      · rw [if_pos hx] at h ⊢
        have ht : t ≠ [] := by
          intro he
          subst he
          simp [List.dropWhile] at h
        obtain ⟨b, t2, rfl⟩ : ∃ b t2, t = b :: t2 := by
          cases t with
          | nil => exact absurd rfl ht
          | cons b t2 => exact ⟨b, t2, rfl⟩
        rw [List.getLast?_cons_cons]
        exact ih h
      · rw [if_neg hx]

/-- Head of a trimmed sequence is never zero. -/
lemma trimZeros_head_ne_zero (l : List ℚ) :
    ∀ a, (trimZeros l).head? = some a → a ≠ 0 := by
  intro a h
  unfold trimZeros at h
  rw [List.head?_reverse] at h
  by_cases hB : (l.dropWhile (fun x => decide (x = 0))).reverse.dropWhile
      (fun x => decide (x = 0)) = []
  · rw [hB] at h; simp at h
  · rw [dropWhile_getLast?_eq _ _ hB, List.getLast?_reverse] at h
    have := dropWhile_head?_false (fun x => decide (x = 0)) l a h
    simpa using this

/-- Last element of a trimmed sequence is never zero. -/
lemma trimZeros_getLast_ne_zero (l : List ℚ) :
    ∀ a, (trimZeros l).getLast? = some a → a ≠ 0 := by
  intro a h
  unfold trimZeros at h
  rw [List.getLast?_reverse] at h
  have := dropWhile_head?_false (fun x => decide (x = 0))
    (l.dropWhile (fun x => decide (x = 0))).reverse a h
  simpa using this

/-! ### Concrete input refuting C9 as stated

The light curve magnitude = [0, 1, 0, 1] at time = [0, 1, 2, 3] is
interpolated onto the grid x_i = i / 33, giving a triangle wave of period
2 sampled 100 times.  At lag tau = 66 the shifted series coincides with
the original, so the structure-function entry at index 65 is zero, while
the entries at indices 0 and 98 are nonzero: the zero is interior and
np.trim_zeros does not remove it, so np.log10 receives a zero. -/

def cexPts : List (ℚ × ℚ) := [(0, 0), (1, 1), (2, 0), (3, 1)]

def cexM : List ℚ :=
  interpGrid [0, 1, 2, 3] [0, 1, 0, 1]
    (linspace (listMin [0, 1, 2, 3]) (listMax [0, 1, 2, 3]) 100)

lemma listMin_cex : listMin ([0, 1, 2, 3] : List ℚ) = 0 := by
  norm_num [listMin, List.foldl, min_def]

lemma listMax_cex : listMax ([0, 1, 2, 3] : List ℚ) = 3 := by
  norm_num [listMax, List.foldl, max_def]

lemma interpPts_cons (q r : ℚ × ℚ) (rest : List (ℚ × ℚ)) (x : ℚ) :
    interpPts (q :: r :: rest) x =
      if x ≤ r.1 then q.2 + (r.2 - q.2) * (x - q.1) / (r.1 - q.1)
      else interpPts (r :: rest) x := rfl

lemma grid_getElem (i : ℕ) (_hi : i < 100) (h : i < (linspace 0 3 100).length) :
    (linspace 0 3 100)[i] = (i : ℚ) / 33 := by
  unfold linspace
  rw [List.getElem_map, List.getElem_range]
  field_simp
  ring

lemma interp_val_low (x : ℚ) (hx : x ≤ 1) : interpPts cexPts x = x := by
  unfold cexPts
  rw [interpPts_cons, if_pos (show x ≤ ((1 : ℚ), (1 : ℚ)).1 from hx)]
  norm_num

lemma interp_val_mid (x : ℚ) (h1 : 1 ≤ x) (h2 : x ≤ 2) : interpPts cexPts x = 2 - x := by
  by_cases hx1 : x ≤ 1
  · have hx : x = 1 := le_antisymm hx1 h1
    subst hx
    rw [interp_val_low 1 le_rfl]
    norm_num
  · unfold cexPts
    rw [interpPts_cons, if_neg (show ¬ x ≤ ((1 : ℚ), (1 : ℚ)).1 from hx1),
      interpPts_cons, if_pos (show x ≤ ((2 : ℚ), (0 : ℚ)).1 from h2)]
    norm_num
    ring

lemma interp_val_high (x : ℚ) (h2 : 2 ≤ x) (h3 : x ≤ 3) : interpPts cexPts x = x - 2 := by
  by_cases hx2 : x ≤ 2
  · have hx : x = 2 := le_antisymm hx2 h2
    subst hx
    rw [interp_val_mid 2 (by norm_num) le_rfl]
  · have hx1 : ¬ x ≤ 1 := by
      intro h
      exact hx2 (le_trans h (by norm_num))
    unfold cexPts
    rw [interpPts_cons, if_neg (show ¬ x ≤ ((1 : ℚ), (1 : ℚ)).1 from hx1),
      interpPts_cons, if_neg (show ¬ x ≤ ((2 : ℚ), (0 : ℚ)).1 from hx2),
      interpPts_cons, if_pos (show x ≤ ((3 : ℚ), (1 : ℚ)).1 from h3)]
    norm_num

lemma cexM_getD (i : ℕ) (hi : i < 100) :
    cexM.getD i 0 =
      if i ≤ 33 then (i : ℚ) / 33
      else if i ≤ 66 then 2 - (i : ℚ) / 33
      else (i : ℚ) / 33 - 2 := by
  unfold cexM interpGrid
  rw [listMin_cex, listMax_cex]
  have hlen : i < ((linspace 0 3 100).map (interpPts (([0,1,2,3] : List ℚ).zip ([0,1,0,1] : List ℚ)))).length := by
    simpa [linspace] using hi
  rw [List.getD_eq_getElem _ _ hlen, List.getElem_map]
  have hz : (([0,1,2,3] : List ℚ).zip ([0,1,0,1] : List ℚ)) = cexPts := rfl
  rw [hz, grid_getElem i hi]
  rcases Nat.lt_or_ge i 34 with h1 | h1
  · have hle : i ≤ 33 := by omega
    rw [if_pos hle, interp_val_low]
    rw [div_le_one (by norm_num)]
    exact_mod_cast hle
  · rcases Nat.lt_or_ge i 67 with h2 | h2
    · have hn1 : ¬ i ≤ 33 := by omega
      have hle2 : i ≤ 66 := by omega
      rw [if_neg hn1, if_pos hle2, interp_val_mid]
      · rw [le_div_iff₀ (by norm_num)]
        have : (34 : ℚ) ≤ (i : ℚ) := by exact_mod_cast h1
        linarith
      · rw [div_le_iff₀ (by norm_num)]
        have : (i : ℚ) ≤ 66 := by exact_mod_cast hle2
        linarith
    · have hn1 : ¬ i ≤ 33 := by omega
      have hn2 : ¬ i ≤ 66 := by omega
      rw [if_neg hn1, if_neg hn2, interp_val_high]
      · rw [le_div_iff₀ (by norm_num)]
        have : (67 : ℚ) ≤ (i : ℚ) := by exact_mod_cast h2
        linarith
      · rw [div_le_iff₀ (by norm_num)]
        have : (i : ℚ) ≤ 99 := by exact_mod_cast (by omega : i ≤ 99)
        linarith

lemma sfSeq_getD (m : List ℚ) (p i : ℕ) (hi : i < 99) :
    (sfSeq m p).getD i 1 = sfEntry m (i + 1) p := by
  unfold sfSeq
  have hlen : i < (((List.range 99).map (fun i => sfEntry m (i + 1) p)) ++ [(0 : ℚ)]).length := by
    simp
    omega
  rw [List.getD_eq_getElem _ _ hlen,
    List.getElem_append_left (by simpa using hi), List.getElem_map, List.getElem_range]

lemma sfSeq_length (m : List ℚ) (p : ℕ) : (sfSeq m p).length = 100 := by
  simp [sfSeq]

lemma cex_entry66 : sfEntry cexM 66 1 = 0 := by
  unfold sfEntry
  have h34 : (100 : ℕ) - 66 = 34 := by norm_num
  rw [h34]
  have hmap : (List.range 34).map (fun i => |cexM.getD i 0 - cexM.getD (i + 66) 0| ^ 1) =
      (List.range 34).map (fun _ => (0 : ℚ)) := by
    apply List.map_congr_left
    intro i hi
    rw [List.mem_range] at hi
    rw [cexM_getD i (by omega), cexM_getD (i + 66) (by omega)]
    rw [if_pos (by omega : i ≤ 33), if_neg (by omega : ¬ i + 66 ≤ 33)]
    by_cases h66 : i + 66 ≤ 66
    · have hi0 : i = 0 := by omega
      subst hi0
      rw [if_pos h66]
      norm_num
    · rw [if_neg h66]
      have hzero : (i : ℚ) / 33 - (((i + 66 : ℕ) : ℚ) / 33 - 2) = 0 := by
        push_cast
        ring
      rw [hzero]
      norm_num
  rw [hmap]
  unfold listMean
  simp

lemma cex_entry1 : sfEntry cexM 1 1 = 1 / 33 := by
  unfold sfEntry
  have h99 : (100 : ℕ) - 1 = 99 := by norm_num
  rw [h99]
  have hmap : (List.range 99).map (fun i => |cexM.getD i 0 - cexM.getD (i + 1) 0| ^ 1) =
      (List.range 99).map (fun _ => (1 : ℚ) / 33) := by
    apply List.map_congr_left
    intro i hi
    rw [List.mem_range] at hi
    rw [cexM_getD i (by omega), cexM_getD (i + 1) (by omega), pow_one]
    rcases Nat.lt_or_ge i 33 with h1 | h1
    · rw [if_pos (by omega : i ≤ 33), if_pos (by omega : i + 1 ≤ 33)]
      have hd : (i : ℚ) / 33 - ((i + 1 : ℕ) : ℚ) / 33 = -(1 / 33) := by
        push_cast
        ring
      rw [hd, abs_neg, abs_of_nonneg (by norm_num : (0 : ℚ) ≤ 1 / 33)]
    · rcases Nat.lt_or_ge i 66 with h2 | h2
      · rcases Nat.eq_or_lt_of_le h1 with he | hlt
        · have hi33 : i = 33 := he.symm
          subst hi33
          rw [if_pos le_rfl, if_neg (by omega : ¬ 33 + 1 ≤ 33),
            if_pos (by omega : 33 + 1 ≤ 66)]
          norm_num
        · rw [if_neg (by omega : ¬ i ≤ 33), if_pos (by omega : i ≤ 66),
            if_neg (by omega : ¬ i + 1 ≤ 33), if_pos (by omega : i + 1 ≤ 66)]
          have hd : 2 - (i : ℚ) / 33 - (2 - ((i + 1 : ℕ) : ℚ) / 33) = 1 / 33 := by
            push_cast
            ring
          rw [hd, abs_of_nonneg (by norm_num : (0 : ℚ) ≤ 1 / 33)]
      · rcases Nat.eq_or_lt_of_le h2 with he | hlt
        · have hi66 : i = 66 := he.symm
          subst hi66
          rw [if_neg (by omega : ¬ (66 : ℕ) ≤ 33), if_pos (by omega : (66 : ℕ) ≤ 66),
            if_neg (by omega : ¬ 66 + 1 ≤ 33), if_neg (by omega : ¬ 66 + 1 ≤ 66)]
          norm_num
        · rw [if_neg (by omega : ¬ i ≤ 33), if_neg (by omega : ¬ i ≤ 66),
            if_neg (by omega : ¬ i + 1 ≤ 33), if_neg (by omega : ¬ i + 1 ≤ 66)]
          have hd : (i : ℚ) / 33 - 2 - (((i + 1 : ℕ) : ℚ) / 33 - 2) = -(1 / 33) := by
            push_cast
            ring
          rw [hd, abs_neg, abs_of_nonneg (by norm_num : (0 : ℚ) ≤ 1 / 33)]
  rw [hmap]
  unfold listMean
  rw [show (fun _ : ℕ => (1 : ℚ) / 33) = Function.const ℕ ((1 : ℚ) / 33) from rfl,
    List.map_const, List.sum_replicate]
  simp

lemma cex_entry99 : sfEntry cexM 99 1 = 1 := by
  unfold sfEntry
  have h1 : (100 : ℕ) - 99 = 1 := by norm_num
  rw [h1]
  have hrange : List.range 1 = [0] := rfl
  rw [hrange]
  simp only [List.map_cons, List.map_nil]
  rw [cexM_getD 0 (by norm_num), cexM_getD (0 + 99) (by norm_num)]
  norm_num [listMean]

/-- Counterexample to C9 as stated: on magnitude [0, 1, 0, 1] at times
[0, 1, 2, 3] the structure-function sequence of power 1 has a zero entry
at the interior index 65 (lag 66), flanked by nonzero entries at indices 0
and 98, and that zero is still a member of the list handed to np.log10:
np.trim_zeros removes leading and trailing zeros only, so a logarithm of
zero is taken. -/
theorem structure_function_interior_zero_cex :
    (0 : ℚ) ∈ structureFunctionLogInput [0, 1, 0, 1] [0, 1, 2, 3] 1 := by
  unfold structureFunctionLogInput
  show (0 : ℚ) ∈ trimZeros (sfSeq cexM 1)
  apply zero_mem_trimZeros (sfSeq cexM 1) 65 98
  · rw [sfSeq_getD _ _ _ (by norm_num), cex_entry1]
    norm_num
  · norm_num
  · norm_num
  · rw [sfSeq_length]
    norm_num
  · rw [sfSeq_getD _ _ _ (by norm_num)]
    exact cex_entry66
  · rw [sfSeq_getD _ _ _ (by norm_num), cex_entry99]
    norm_num

/-- C9 amended: before the base-10 logarithm, only the leading and
trailing runs of zeros are removed from each structure-function sequence:
the first and the last value of the list passed to np.log10 are never
zero, for every input and for each of the three powers, but an interior
zero survives the trimming (see the counterexample). -/
theorem structure_function_trim_ends_only (magnitude time : List ℚ) (p : ℕ) :
    (∀ a, (structureFunctionLogInput magnitude time p).head? = some a → a ≠ 0) ∧
      (∀ a, (structureFunctionLogInput magnitude time p).getLast? = some a → a ≠ 0) :=
  ⟨fun a h => trimZeros_head_ne_zero _ a h,
   fun a h => trimZeros_getLast_ne_zero _ a h⟩

lemma trimZeros_head?_of_ne (l : List ℚ) (a : ℚ) (ha : a ≠ 0)
    (hhead : l.head? = some a) : (trimZeros l).head? = some a := by
  obtain ⟨b, t, rfl⟩ : ∃ b t, l = b :: t := by
    cases l with
    | nil => simp at hhead
    | cons b t => exact ⟨b, t, rfl⟩
  have hba : b = a := by simpa using hhead
  subst hba
  unfold trimZeros
  rw [List.dropWhile_cons, if_neg (by simpa using ha)]
  rw [List.head?_reverse]
  have hne : (b :: t).reverse.dropWhile (fun y => decide (y = 0)) ≠ [] := by
    intro hall
    rw [List.dropWhile_eq_nil_iff] at hall
    have hb := hall b (by rw [List.mem_reverse]; exact List.mem_cons_self b t)
    simp [ha] at hb
  rw [dropWhile_getLast?_eq _ _ hne, List.getLast?_reverse, List.head?_cons]

lemma sfSeq_head? (m : List ℚ) (p : ℕ) :
    (sfSeq m p).head? = some (sfEntry m 1 p) := by
  unfold sfSeq
  rw [List.range_succ_eq_map]
  simp

/-- Witness for the amended C9: at the concrete input of the
counterexample, the head of the list passed to np.log10 is the nonzero
value 1/33, as the amended claim requires. -/
theorem structure_function_trim_ends_only_witness :
    (structureFunctionLogInput [0, 1, 0, 1] [0, 1, 2, 3] 1).head? = some (1 / 33) ∧
      (1 / 33 : ℚ) ≠ 0 := by
  have hhead : (structureFunctionLogInput [0, 1, 0, 1] [0, 1, 2, 3] 1).head? =
      some (1 / 33) := by
    unfold structureFunctionLogInput
    show (trimZeros (sfSeq cexM 1)).head? = some (1 / 33)
    apply trimZeros_head?_of_ne _ _ (by norm_num)
    rw [sfSeq_head?, cex_entry1]
  exact ⟨hhead,
    (structure_function_trim_ends_only [0, 1, 0, 1] [0, 1, 2, 3] 1).1 (1 / 33) hhead⟩

end Feets
